import Mathlib

/-!
Shallow embedding of the `obset` repository: an observable, optionally
capacity-bounded unique-value set (`src/src/index.ts`, class `ObSet<T>`),
together with the array-backed `ArrayMap` indexed store
(`src/src/ObSet.ts`, class `ArrayMap<T>`).

Values and listener callbacks are modelled as natural numbers (callback
identity); JS `Set`s are modelled as insertion-ordered duplicate-free
lists, JS `Map`s and plain objects as insertion-ordered association
lists.  Listener callbacks are inert identities: a dispatch produces the
list of fired `(listener, operation, value)` triples instead of running
arbitrary code.  Bucket objects stored in `valueListeners` are modelled
through an explicit heap (`Heap`) of buckets addressed by index, because
`clone()` copies bucket references, so two sets can share one bucket.
-/

namespace Obs

/-- Enumeration of the event taxonomy of `index.ts` (`SetOperation`). -/
inductive SetOperation where
  | opAdd
  | opEmpty
  | opFull
  | opRemove
deriving DecidableEq, Fintype, Repr

/-- Replacement policies of `index.ts` (`ReplacementPolicy`). -/
inductive Policy where
  | FIFO
  | LIFO
deriving DecidableEq, Repr

/-- Number of occurrences of `l` in a list (helper for counting). -/
def cnt (l : Nat) : List Nat → Nat
  | [] => 0
  | x :: rest => (if x = l then 1 else 0) + cnt l rest

/-- Removal of the first occurrence, the model of `Set.prototype.delete`. -/
def eraseFirst : List Nat → Nat → List Nat
  | [], _ => []
  | x :: rest, v => if x = v then rest else x :: eraseFirst rest v

/-- Index of the first occurrence, the model of `Array.prototype.indexOf`
(meaningful only when the element is present; callers guard on membership
exactly as the source guards on `indexOf !== -1` / `includes`). -/
def firstIdx : List Nat → Nat → Nat
  | [], _ => 0
  | x :: rest, v => if x = v then 0 else firstIdx rest v + 1

/-- Last element of a list, the model of `arr[arr.length - 1]`
(0 stands for the JS `undefined` read off an empty array; all call sites
are guarded so that the list is non-empty). -/
def lastD : List Nat → Nat
  | [] => 0
  | [x] => x
  | _ :: y :: rest => lastD (y :: rest)

/-- In-place update at an index, the model of `arr[i] = b` for `i` in
bounds (out-of-range leaves the list unchanged; call sites are guarded). -/
def setAt : List Nat → Nat → Nat → List Nat
  | [], _, _ => []
  | _ :: rest, 0, b => b :: rest
  | x :: rest, n + 1, b => x :: setAt rest n b

/-- Removal of the last element, the model of `arr.pop()`. -/
def butLast : List Nat → List Nat
  | [] => []
  | [_] => []
  | x :: y :: rest => x :: butLast (y :: rest)

/-- Model of the `swappop` package: `arr[i] = arr[arr.length - 1]; arr.pop()`. -/
def swapPop (arr : List Nat) (i : Nat) : List Nat :=
  butLast (setAt arr i (lastD arr))

/-- Model of `ObSet.deleteOneTimeListener` (`index.ts` lines 222-230):
`swapPop` at `indexOf` when the listener is present. -/
def deleteOneTimeListener (arr : List Nat) (l : Nat) : List Nat :=
  if l ∈ arr then swapPop arr (firstIdx arr l) else arr

/-- Model of `Set.prototype.add`: append unless already present. -/
def insertIfAbsent (L : List Nat) (l : Nat) : List Nat :=
  if l ∈ L then L else L ++ [l]

/-- Association-list lookup, the model of `Map.prototype.get` and of
reading a property off a plain object. -/
def alook {α β : Type} [DecidableEq α] : List (α × β) → α → Option β
  | [], _ => none
  | (a, b) :: rest, k => if a = k then some b else alook rest k

/-- Association-list removal, the model of `Map.prototype.delete`. -/
def adel {α β : Type} [DecidableEq α] : List (α × β) → α → List (α × β)
  | [], _ => []
  | (a, b) :: rest, k => if a = k then rest else (a, b) :: adel rest k

/-- Association-list update-or-append, the model of `Map.prototype.set`
and of property assignment on a plain object (insertion order kept). -/
def aset {α β : Type} [DecidableEq α] : List (α × β) → α → β → List (α × β)
  | [], k, v => [(k, v)]
  | (a, b) :: rest, k, v => if a = k then (k, v) :: rest else (a, b) :: aset rest k v

/-- Value of a per-operation listener slot inside a value bucket: a JS
object property is either a `Set` of listeners or has been assigned
`undefined` by `freeUnusedResourcesIn` (a key that is absent altogether
is modelled by `alook` returning `none`). -/
inductive BEntry where
  | undef
  | listeners (L : List Nat)
deriving DecidableEq, Repr

/-- Bucket object held in `valueListeners` (`MaybeListeners<T>`): an
insertion-ordered association from operations to slots. -/
structure Bucket where
  entries : List (SetOperation × BEntry)
deriving DecidableEq, Repr

/-- Reading `bucket[operation]`. -/
def Bucket.get (b : Bucket) (op : SetOperation) : Option BEntry :=
  alook b.entries op

/-- Writing `bucket[operation] = e`. -/
def Bucket.put (b : Bucket) (op : SetOperation) (e : BEntry) : Bucket :=
  ⟨aset b.entries op e⟩

/-- Heap of bucket objects; `valueListeners` maps values to heap
addresses so that bucket sharing between a set and its clone is exact. -/
abbrev Heap := List Bucket

/-- Heap read. -/
def hGet : Heap → Nat → Option Bucket
  | [], _ => none
  | b :: _, 0 => some b
  | _ :: rest, n + 1 => hGet rest n

/-- Heap write at an existing address. -/
def hSet : Heap → Nat → Bucket → Heap
  | [], _, _ => []
  | _ :: rest, 0, b => b :: rest
  | x :: rest, n + 1, b => x :: hSet rest n b

/-- The four fixed global listener sets (`Listeners<T>`, one JS `Set`
per operation, initialized empty in the field initializer). -/
structure OpListeners where
  addL : List Nat
  emptyL : List Nat
  fullL : List Nat
  removeL : List Nat
deriving DecidableEq, Repr

/-- Reading `operationListeners[operation]`. -/
def OpListeners.get (o : OpListeners) : SetOperation → List Nat
  | .opAdd => o.addL
  | .opEmpty => o.emptyL
  | .opFull => o.fullL
  | .opRemove => o.removeL

/-- Replacing `operationListeners[operation]` wholesale (the model keeps
the mutated JS `Set` by storing its new contents back). -/
def OpListeners.put (o : OpListeners) : SetOperation → List Nat → OpListeners
  | .opAdd, L => { o with addL := L }
  | .opEmpty, L => { o with emptyL := L }
  | .opFull, L => { o with fullL := L }
  | .opRemove, L => { o with removeL := L }

/-- State of one `ObSet<T>` instance from `index.ts`: the inherited JS
`Set` contents (`elems`, insertion order, duplicate-free by
construction), the recency trackers, the one-time listener array, the
global listener sets, the `valueListeners` map (values to heap bucket
addresses), and the stored options. -/
structure ObSetData where
  elems : List Nat
  least : Option Nat
  most : Option Nat
  oneTime : List Nat
  ops : OpListeners
  valueL : List (Nat × Nat)
  capacity : Option Nat
  policy : Policy
  free : Bool
deriving DecidableEq, Repr

/-- Model of the `isFull` getter (`index.ts` lines 77-85), verbatim:
empty sets are never full; a falsy capacity (0) is never full; the
default capacity `Number.POSITIVE_INFINITY` (modelled as `none`) is
truthy, so the getter falls through to `size < capacity`, which is
always true for a non-empty set; otherwise the getter returns
`size < capacity` exactly as written in the source. -/
def ObSetData.isFull (d : ObSetData) : Bool :=
  if d.elems.isEmpty then false
  else
    match d.capacity with
    | none => true
    | some c => if c = 0 then false else decide (d.elems.length < c)

/-- Model of the `isEmpty` getter (`index.ts` lines 87-89). -/
def ObSetData.isEmptyS (d : ObSetData) : Bool :=
  d.elems.isEmpty

/-- Fired-listener record: which callback fired, for which operation and
value. -/
abbrev Fired := Nat × SetOperation × Nat

/-- Listener loop shared by both phases of `dispatchEvent` (`index.ts`
lines 236-243 and 249-256): iterate the snapshot of the listener set,
fire each listener, and when the fired listener is in the one-time
array delete it from the (current) listener set and `swapPop` it out of
the one-time array.  The JS `for..of` visits exactly the members present
at loop entry because the body only ever deletes the current member. -/
def dispatchLoop (op : SetOperation) (v : Nat) :
    List Nat → List Nat → List Nat → List Nat × List Nat × List Fired
  | [], setL, oneT => (setL, oneT, [])
  | p :: rest, setL, oneT =>
    if p ∈ oneT then
      match dispatchLoop op v rest (eraseFirst setL p) (deleteOneTimeListener oneT p) with
      | (s2, o2, f2) => (s2, o2, (p, op, v) :: f2)
    else
      match dispatchLoop op v rest setL oneT with
      | (s2, o2, f2) => (s2, o2, (p, op, v) :: f2)

/-- Result of a dispatch: updated set state, updated heap, fired list. -/
structure DRes where
  d : ObSetData
  h : Heap
  fired : List Fired
deriving DecidableEq, Repr

/-- Model of `ObSet.dispatchEvent` (`index.ts` lines 233-259): the
global phase runs over `operationListeners[operation]`, then the value
phase runs over `valueListeners.get(value)?.[operation]` when that slot
holds a set (an absent key or an `undefined` slot is falsy and returns
early). -/
def dispatchEvent (d : ObSetData) (h : Heap) (op : SetOperation) (v : Nat) : DRes :=
  match dispatchLoop op v (d.ops.get op) (d.ops.get op) d.oneTime with
  | (gs, go, gf) =>
    let d1 : ObSetData := { d with ops := d.ops.put op gs, oneTime := go }
    match alook d1.valueL v with
    | none => ⟨d1, h, gf⟩
    | some idx =>
      match hGet h idx with
      | none => ⟨d1, h, gf⟩
      | some b =>
        match b.get op with
        | none => ⟨d1, h, gf⟩
        | some BEntry.undef => ⟨d1, h, gf⟩
        | some (BEntry.listeners L) =>
          match dispatchLoop op v L L d1.oneTime with
          | (ws, wo, wf) =>
            ⟨{ d1 with oneTime := wo }, hSet h idx (b.put op (BEntry.listeners ws)), gf ++ wf⟩

/-- Result of a mutating set operation: new state, new heap, dispatched
event trace, fired-listener trace. -/
structure Step where
  d : ObSetData
  h : Heap
  evs : List (SetOperation × Nat)
  fired : List Fired
deriving DecidableEq, Repr

/-- Model of `ObSet.delete` (`index.ts` lines 212-219): no-op on a
non-member; otherwise remove from the inherited set, dispatch `remove`,
and dispatch `empty` when the set is now empty.  The recency trackers
are not touched, exactly as in the source. -/
def removeFn (d : ObSetData) (h : Heap) (v : Nat) : Step :=
  if v ∈ d.elems then
    match dispatchEvent { d with elems := eraseFirst d.elems v } h .opRemove v with
    | ⟨d1, h1, f1⟩ =>
      if d1.isEmptyS then
        match dispatchEvent d1 h1 .opEmpty v with
        | ⟨d2, h2, f2⟩ => ⟨d2, h2, [(.opRemove, v), (.opEmpty, v)], f1 ++ f2⟩
      else
        ⟨d1, h1, [(.opRemove, v)], f1⟩
  else ⟨d, h, [], []⟩

/-- Model of `ObSet.add` together with the private `replace` it calls
(`index.ts` lines 141-153 and 161-181), with explicit fuel for the
mutual `add → replace → add` recursion, which the source does not bound
(`none` models a JS stack overflow).  An `add` of a member is a no-op;
an `add` on a full set first deletes the policy's victim
(`delete(undefined)` on a missing tracker is a no-op, since `delete`
checks membership) and retries; a plain insert updates the trackers,
dispatches `add`, and dispatches `full` when `isFull` now holds. -/
def addFn : Nat → ObSetData → Heap → Nat → Option Step
  | fuel, d, h, v =>
    if v ∈ d.elems then some ⟨d, h, [], []⟩
    else if d.isFull then
      match fuel with
      | 0 => none
      | fuel' + 1 =>
        let victim : Option Nat :=
          match d.policy with
          | .FIFO => d.least
          | .LIFO => d.most
        match (match victim with
               | none => (⟨d, h, [], []⟩ : Step)
               | some u => removeFn d h u) with
        | ⟨de, he, evse, firede⟩ =>
          match addFn fuel' de he v with
          | none => none
          | some ⟨d2, h2, evs2, fired2⟩ =>
            some ⟨d2, h2, evse ++ evs2, firede ++ fired2⟩
    else
      let d1 : ObSetData := if d.elems.isEmpty then { d with least := some v } else d
      match dispatchEvent { d1 with elems := d1.elems ++ [v], most := some v } h .opAdd v with
      | ⟨da, ha, fa⟩ =>
        if da.isFull then
          match dispatchEvent da ha .opFull v with
          | ⟨db, hb, fb⟩ => some ⟨db, hb, [(.opAdd, v), (.opFull, v)], fa ++ fb⟩
        else
          some ⟨da, ha, [(.opAdd, v)], fa⟩

/-- One iteration of the constructor's `initialValues` loop (`index.ts`
lines 128-136): seed the least-recently-added tracker while the set is
empty, insert through the inherited `Set.add` (silently, no events), and
unconditionally update the most-recently-added tracker. -/
def ctorStep (d : ObSetData) (v : Nat) : ObSetData :=
  let d1 : ObSetData := if d.elems.isEmpty then { d with least := some v } else d
  let d2 : ObSetData := { d1 with elems := insertIfAbsent d1.elems v }
  { d2 with most := some v }

/-- The constructor's `initialValues` loop. -/
def ctorLoop (d : ObSetData) : List Nat → ObSetData
  | [] => d
  | v :: rest => ctorLoop (ctorStep d v) rest

/-- Model of the `ObSet` constructor (`index.ts` lines 116-139): stored
options (capacity defaulting to `Number.POSITIVE_INFINITY`, modelled as
`none`; policy defaulting to FIFO; `freeUnusedResources` defaulting to
true) and direct, event-free insertion of the initial values. -/
def mkObSet (init : List Nat) (cap : Option Nat) (pol : Policy) (fr : Bool) : ObSetData :=
  ctorLoop ⟨[], none, none, [], ⟨[], [], [], []⟩, [], cap, pol, fr⟩ init

/-- Model of `ObSet.onOperation` (`index.ts` lines 401-407): add the
listener to the global set for the operation; push it onto the one-time
array when the `once` option is set. -/
def onOperation (d : ObSetData) (op : SetOperation) (l : Nat) (once : Bool) : ObSetData :=
  let d1 : ObSetData := { d with ops := d.ops.put op (insertIfAbsent (d.ops.get op) l) }
  if once then { d1 with oneTime := d1.oneTime ++ [l] } else d1

/-- Model of `ObSet.onValue` (`index.ts` lines 410-420): lazily allocate
the per-value bucket (`initOperationListenersFor`) and the per-operation
set (`initEventListenersFor`; the `??` also replaces a slot holding
`undefined`), add the listener, and record the `once` option. -/
def onValue (d : ObSetData) (h : Heap) (op : SetOperation) (v : Nat) (l : Nat)
    (once : Bool) : ObSetData × Heap :=
  match (match alook d.valueL v with
         | some i => (d, h, i)
         | none => ({ d with valueL := d.valueL ++ [(v, h.length)] }, h ++ [(⟨[]⟩ : Bucket)], h.length)) with
  | (d1, h1, idx) =>
    match hGet h1 idx with
    | none => (d1, h1)
    | some b =>
      let L : List Nat :=
        match b.get op with
        | some (BEntry.listeners L) => L
        | _ => []
      ((if once then { d1 with oneTime := d1.oneTime ++ [l] } else d1),
       hSet h1 idx (b.put op (BEntry.listeners (insertIfAbsent L l))))

/-- Model of `ObSet.findOperationsWithoutListenersIn` (`index.ts` lines
300-312): walk `Object.entries` of the bucket collecting the operations
whose set has size 0; destructuring `{ size }` of a slot holding
`undefined` throws a `TypeError`, modelled as `none`. -/
def findOpsWithout : List (SetOperation × BEntry) → Option (List SetOperation)
  | [] => some []
  | (_, BEntry.undef) :: _ => none
  | (op, BEntry.listeners L) :: rest =>
    match findOpsWithout rest with
    | none => none
    | some os => some (if L.isEmpty then op :: os else os)

/-- Zeroing loop of `freeUnusedResourcesIn` (`index.ts` lines 322-324):
assign `undefined` to every listed key (the key stays, with its
position). -/
def zeroOps (entries : List (SetOperation × BEntry)) (os : List SetOperation) :
    List (SetOperation × BEntry) :=
  entries.map fun e => if e.1 ∈ os then (e.1, BEntry.undef) else e

/-- Modelled from the spec: the `isEmpty` object utility
(`src/src/utils/isEmpty.js`) is imported by `index.ts` but its source is
absent from the repository snapshot.  Per the spec's description of the
`freeUnusedResources` cleanup, the question it answers about a bucket is
whether the value's bucket "holds no operation sets at all", so it is
modelled as: every remaining slot of the bucket is `undefined` (no slot
holds a listener set). -/
def isEmptyBucket (b : Bucket) : Bool :=
  b.entries.all fun e =>
    match e.2 with
    | BEntry.undef => true
    | BEntry.listeners _ => false

/-- Result of `off`: new state/heap plus whether the call threw (the
`TypeError` of `findOperationsWithoutListenersIn`; mutations made before
the throw are kept, as in JS). -/
structure OffRes where
  d : ObSetData
  h : Heap
  threw : Bool
deriving DecidableEq, Repr

/-- Model of `ObSet.off` (`index.ts` lines 428-443) together with
`freeUnusedResourcesIn` (lines 318-330): missing bucket or missing/
`undefined` slot returns unchanged; otherwise delete the listener from
the slot's set and from the one-time array, and when
`freeUnusedResources` is on, zero out now-empty sets, then — verbatim
from the source — return early when the bucket `isEmpty`, otherwise
delete the value's entry from `valueListeners`. -/
def off (d : ObSetData) (h : Heap) (op : SetOperation) (v : Nat) (l : Nat) : OffRes :=
  match alook d.valueL v with
  | none => ⟨d, h, false⟩
  | some idx =>
    match hGet h idx with
    | none => ⟨d, h, false⟩
    | some b =>
      match b.get op with
      | none => ⟨d, h, false⟩
      | some BEntry.undef => ⟨d, h, false⟩
      | some (BEntry.listeners L) =>
        match b.put op (BEntry.listeners (eraseFirst L l)) with
        | b1 =>
          let d1 : ObSetData := { d with oneTime := deleteOneTimeListener d.oneTime l }
          if d1.free then
            match findOpsWithout b1.entries with
            | none => ⟨d1, hSet h idx b1, true⟩
            | some os =>
              match (⟨zeroOps b1.entries os⟩ : Bucket) with
              | b2 =>
                if isEmptyBucket b2 then ⟨d1, hSet h idx b2, false⟩
                else ⟨{ d1 with valueL := adel d1.valueL v }, hSet h idx b2, false⟩
          else ⟨d1, hSet h idx b1, false⟩

/-- Model of `ObSet.clone` (`index.ts` lines 191-209): a fresh set built
by the constructor from the current elements and the same stored
options, each global listener re-added to the clone's fresh sets, each
`valueListeners` entry copied as a reference to the same bucket object
(the same heap address), and the one-time array copied element-wise. -/
def clone (d : ObSetData) : ObSetData :=
  let c0 := mkObSet d.elems d.capacity d.policy d.free
  { c0 with
    ops := ⟨(d.ops.addL).foldl insertIfAbsent [], (d.ops.emptyL).foldl insertIfAbsent [],
            (d.ops.fullL).foldl insertIfAbsent [], (d.ops.removeL).foldl insertIfAbsent []⟩
    valueL := d.valueL
    oneTime := d.oneTime }

/-- Sequencing of dispatches (the "subsequent matching events" of a run
of the set), accumulating the fired-listener trace. -/
def runDispatches : ObSetData → Heap → List (SetOperation × Nat) → DRes
  | d, h, [] => ⟨d, h, []⟩
  | d, h, (op, v) :: rest =>
    match dispatchEvent d h op v with
    | ⟨d1, h1, f1⟩ =>
      match runDispatches d1 h1 rest with
      | ⟨d2, h2, f2⟩ => ⟨d2, h2, f1 ++ f2⟩

/-- Sequencing of `add` calls, accumulating the event trace. -/
def addSeq : Nat → ObSetData → Heap → List Nat → Option Step
  | _, d, h, [] => some ⟨d, h, [], []⟩
  | fuel, d, h, v :: rest =>
    match addFn fuel d h v with
    | none => none
    | some ⟨d1, h1, evs1, f1⟩ =>
      match addSeq fuel d1 h1 rest with
      | none => none
      | some ⟨d2, h2, evs2, f2⟩ => some ⟨d2, h2, evs1 ++ evs2, f1 ++ f2⟩

/-- Sequencing of `off` calls (each argument triple is
`(operation, value, listener)`). -/
def offSeq : ObSetData → Heap → List (SetOperation × Nat × Nat) → ObSetData × Heap
  | d, h, [] => (d, h)
  | d, h, (op, v, l) :: rest =>
    match off d h op v l with
    | ⟨d1, h1, _⟩ => offSeq d1 h1 rest

/-- Count of firings of listener `l` in a fired-listener trace. -/
def firedCnt (l : Nat) : List Fired → Nat
  | [] => 0
  | e :: rest => (if e.1 = l then 1 else 0) + firedCnt l rest

/-- State of the `ArrayMap<T>` indexed store (`src/src/ObSet.ts`, lines
481-534): the `indexes` map from values to slot positions and the
backing `values` array.  Map keys are `Option Nat` because the source
can call `indexes.set(this.values[this.values.length - 1], i)` with the
JS `undefined` read off an empty array, modelled as `none`. -/
structure ArrayMap where
  indexes : List (Option Nat × Nat)
  values : List Nat
deriving DecidableEq, Repr

/-- Model of `ArrayMap.add` (lines 502-512): no-op returning false on a
tracked value, else record `values.push(value) - 1` as the index. -/
def ArrayMap.add (m : ArrayMap) (v : Nat) : ArrayMap × Bool :=
  match alook m.indexes (some v) with
  | some _ => (m, false)
  | none =>
    ({ indexes := aset m.indexes (some v) m.values.length, values := m.values ++ [v] }, true)

/-- Model of `ArrayMap.has` (lines 514-516). -/
def ArrayMap.has (m : ArrayMap) (v : Nat) : Bool :=
  (alook m.indexes (some v)).isSome

/-- Last element of the backing array as the JS value `values[length-1]`
(`none` models `undefined` on an empty array). -/
def lastO : List Nat → Option Nat
  | [] => none
  | [x] => some x
  | _ :: y :: rest => lastO (y :: rest)

/-- Model of `ArrayMap.remove` (lines 518-533), verbatim order: look up
the slot `i`, return false when untracked; otherwise delete the value
from `indexes`, then `indexes.set(values[values.length - 1], i)` (note:
executed before the swap-pop, so when the removed value sits in the last
slot the value itself is re-inserted into `indexes`), then `swapPop` the
backing array at `i`. -/
def ArrayMap.remove (m : ArrayMap) (v : Nat) : ArrayMap × Bool :=
  match alook m.indexes (some v) with
  | none => (m, false)
  | some i =>
    let idx1 := adel m.indexes (some v)
    let idx2 := aset idx1 (lastO m.values) i
    ({ indexes := idx2, values := swapPop m.values i }, true)

/-- Model of the `ArrayMap` constructor (lines 494-500): fold `add` over
the initial values. -/
def ArrayMap.ofList (l : List Nat) : ArrayMap :=
  l.foldl (fun m v => (m.add v).1) ⟨[], []⟩

/-- The store invariant of the spec (§3): `index[v] == i ⇔ slots[i] == v`
for all tracked values, with `|slots| == |index|`. -/
def ArrayMap.Wf (m : ArrayMap) : Prop :=
  m.indexes.length = m.values.length ∧
  ∀ v i, alook m.indexes (some v) = some i ↔ m.values.get? i = some v

/-- Convenience builder for a set state with no registered listeners. -/
def plainState (es : List Nat) (le mo : Option Nat) (cap : Option Nat) : ObSetData :=
  ⟨es, le, mo, [], ⟨[], [], [], []⟩, [], cap, .FIFO, true⟩

/-! ### General lemmas about the operations -/

/-- Dispatching an event never changes the membership list. -/
theorem dispatchEvent_elems (d : ObSetData) (h : Heap) (op : SetOperation) (v : Nat) :
    (dispatchEvent d h op v).d.elems = d.elems := by
  unfold dispatchEvent
  split
  all_goals dsimp only
  all_goals repeat' split
  all_goals rfl

/-- The `off` operation never touches the global operation-scoped
listener sets: its mutations are confined to the value buckets and the
one-time array. -/
theorem off_ops (d : ObSetData) (h : Heap) (op : SetOperation) (v l : Nat) :
    (off d h op v l).d.ops = d.ops := by
  unfold off
  repeat' split
  all_goals dsimp only
  all_goals repeat' split
  all_goals rfl

/-- Removal of a non-member is a complete no-op. -/
theorem removeFn_not_mem (d : ObSetData) (h : Heap) (v : Nat) (hv : v ∉ d.elems) :
    removeFn d h v = ⟨d, h, [], []⟩ := by
  unfold removeFn
  simp [hv]

/-- Characterization of a successful removal: membership loses `v`, and
the event trace is `remove` followed by `empty` exactly when the erased
membership list is empty. -/
theorem removeFn_mem (d : ObSetData) (h : Heap) (v : Nat) (hv : v ∈ d.elems) :
    (removeFn d h v).d.elems = eraseFirst d.elems v ∧
    (removeFn d h v).evs =
      (if (eraseFirst d.elems v).isEmpty then
        [(SetOperation.opRemove, v), (SetOperation.opEmpty, v)]
      else [(SetOperation.opRemove, v)]) := by
  unfold removeFn
  simp only [if_pos hv]
  rcases hde : dispatchEvent { d with elems := eraseFirst d.elems v } h .opRemove v
    with ⟨d1, h1, f1⟩
  have h1e : d1.elems = eraseFirst d.elems v := by
    have := dispatchEvent_elems { d with elems := eraseFirst d.elems v } h .opRemove v
    rw [hde] at this
    exact this
  have h1emp : d1.isEmptyS = (eraseFirst d.elems v).isEmpty := by
    unfold ObSetData.isEmptyS
    rw [h1e]
  dsimp only
  by_cases hemp : d1.isEmptyS
  · rcases hde2 : dispatchEvent d1 h1 .opEmpty v with ⟨d2, h2, f2⟩
    have h2e : d2.elems = d1.elems := by
      have := dispatchEvent_elems d1 h1 .opEmpty v
      rw [hde2] at this
      exact this
    rw [if_pos hemp]
    dsimp only
    rw [← h1emp, if_pos hemp]
    exact ⟨h2e.trans h1e, rfl⟩
  · rw [if_neg hemp]
    dsimp only
    rw [← h1emp, if_neg hemp]
    exact ⟨h1e, rfl⟩

/-- Unfolding lemma for an empty `addSeq` run. -/
theorem addSeq_nil (fuel : Nat) (d : ObSetData) (h : Heap) :
    addSeq fuel d h [] = some ⟨d, h, [], []⟩ := rfl

/-- Unfolding lemma for one step of an `addSeq` run. -/
theorem addSeq_cons (fuel : Nat) (d : ObSetData) (h : Heap) (v : Nat) (rest : List Nat) :
    addSeq fuel d h (v :: rest) =
      (match addFn fuel d h v with
       | none => none
       | some ⟨d1, h1, evs1, f1⟩ =>
         match addSeq fuel d1 h1 rest with
         | none => none
         | some ⟨d2, h2, evs2, f2⟩ => some ⟨d2, h2, evs1 ++ evs2, f1 ++ f2⟩) := rfl

/-- The constructor's per-value step only appends to the membership
list (when the value is new). -/
theorem ctorStep_elems (d : ObSetData) (v : Nat) :
    (ctorStep d v).elems = insertIfAbsent d.elems v := by
  unfold ctorStep
  split
  all_goals rfl

/-- The constructor's per-value step keeps the stored options. -/
theorem ctorStep_capacity (d : ObSetData) (v : Nat) :
    (ctorStep d v).capacity = d.capacity := by
  unfold ctorStep
  split
  all_goals rfl

/-- The constructor loop over duplicate-free fresh initial values
appends them all, in order. -/
theorem ctorLoop_elems :
    ∀ (init : List Nat) (d : ObSetData), (d.elems ++ init).Nodup →
      (ctorLoop d init).elems = d.elems ++ init := by
  intro init
  induction init with
  | nil => intro d _; simp [ctorLoop]
  | cons v rest ih =>
    intro d hnd
    have hv : v ∉ d.elems := by
      intro hvmem
      exact (List.disjoint_of_nodup_append hnd) hvmem (List.mem_cons_self v rest)
    have hstep : (ctorStep d v).elems = d.elems ++ [v] := by
      rw [ctorStep_elems]
      simp [insertIfAbsent, hv]
    have hnd2 : ((ctorStep d v).elems ++ rest).Nodup := by
      rw [hstep, List.append_assoc]
      simpa using hnd
    have := ih (ctorStep d v) hnd2
    unfold ctorLoop
    rw [this, hstep, List.append_assoc]
    rfl

/-- The constructor loop keeps the stored options. -/
theorem ctorLoop_capacity :
    ∀ (init : List Nat) (d : ObSetData), (ctorLoop d init).capacity = d.capacity := by
  intro init
  induction init with
  | nil => intro d; rfl
  | cons v rest ih =>
    intro d
    unfold ctorLoop
    rw [ih (ctorStep d v), ctorStep_capacity]

/-! ### Claim C1 -/

/-- Fresh bounded set of claim C1: capacity 2, FIFO, no initial values. -/
def c1d0 : ObSetData := mkObSet [] (some 2) .FIFO true

/-- State after the first add of the C1 run. -/
def c1d1 : ObSetData := plainState [0] (some 0) (some 0) (some 2)

/-- State after the second add of the C1 run. -/
def c1d2 : ObSetData := plainState [1] (some 1) (some 1) (some 2)

/-- State after the third add of the C1 run. -/
def c1d3 : ObSetData := plainState [2] (some 2) (some 2) (some 2)

theorem c1_step1 : addFn 2 c1d0 [] 0 =
    some ⟨c1d1, [], [(.opAdd, 0), (.opFull, 0)], []⟩ := by decide

theorem c1_step2 : addFn 2 c1d1 [] 1 =
    some ⟨c1d2, [], [(.opRemove, 0), (.opEmpty, 0), (.opAdd, 1), (.opFull, 1)], []⟩ := by decide

theorem c1_step3 : addFn 2 c1d2 [] 2 =
    some ⟨c1d3, [], [(.opRemove, 1), (.opEmpty, 1), (.opAdd, 2), (.opFull, 2)], []⟩ := by decide

/-- C1: the claimed run (capacity 2, FIFO, `add(a); add(b); add(c)` on
the distinct values 0, 1, 2) does not behave as the claim states.
Because the `isFull` getter returns `size < capacity`, the set reports
full after every insertion below capacity, so every subsequent add
evicts; the code's actual result is membership `[2]` (not `{1, 2}`) and
the event trace `add(0), full(0), remove(0), empty(0), add(1), full(1),
remove(1), empty(1), add(2), full(2)` (not
`add(0), add(1), full(1), remove(0), add(2), full(2)`).  This theorem
certifies the code's behavior at the claim's input. -/
theorem c1_fifo_capacity2_trace :
    addSeq 2 c1d0 [] [0, 1, 2] =
      some ⟨c1d3, [],
        [(.opAdd, 0), (.opFull, 0),
         (.opRemove, 0), (.opEmpty, 0), (.opAdd, 1), (.opFull, 1),
         (.opRemove, 1), (.opEmpty, 1), (.opAdd, 2), (.opFull, 2)], []⟩ := by
  rw [addSeq_cons, c1_step1]
  dsimp only
  rw [addSeq_cons, c1_step2]
  dsimp only
  rw [addSeq_cons, c1_step3]
  dsimp only
  rw [addSeq_nil]
  rfl

/-! ### Claim C2 -/

/-- The one-element indexed store of claim C2's edge case. -/
def c2map : ArrayMap := ArrayMap.ofList [0]

/-- C2: `ArrayMap.remove` corrupts the index when the removed value sits
in the last slot.  Removing the sole element 0 of a one-element store
leaves `indexes = [(some 0, 0)]` while `values = []`: the element was
deleted from `indexes` but then re-inserted by
`indexes.set(values[values.length - 1], i)` before the swap-pop, so
`contains(0)` stays true, `|slots| ≠ |index|`, and the store invariant
is violated — contradicting the claim that the removal preserves the
invariant and leaves `contains(v)` false. -/
theorem c2_remove_sole_element_corrupts_index :
    c2map.remove 0 = (⟨[(some 0, 0)], []⟩, true) ∧
    (c2map.remove 0).1.has 0 = true ∧
    ¬ (c2map.remove 0).1.Wf := by
  refine ⟨by decide, by decide, fun hw => absurd hw.1 (by decide)⟩

/-! ### Claim C6 -/

/-- C6: removing the sole remaining member dispatches `remove` and then
`empty`, in that order; and whenever an `empty` event appears in the
trace of a removal, that removal left the set with zero elements. -/
theorem c6_remove_then_empty :
    (∀ (d : ObSetData) (h : Heap) (v : Nat), d.elems = [v] →
      (removeFn d h v).evs = [(SetOperation.opRemove, v), (SetOperation.opEmpty, v)]) ∧
    (∀ (d : ObSetData) (h : Heap) (v w : Nat),
      (SetOperation.opEmpty, w) ∈ (removeFn d h v).evs → (removeFn d h v).d.elems = []) := by
  constructor
  · intro d h v hv
    have hmem : v ∈ d.elems := by rw [hv]; exact List.mem_singleton.mpr rfl
    have he : eraseFirst d.elems v = [] := by rw [hv]; simp [eraseFirst]
    rw [(removeFn_mem d h v hmem).2, he]
    rfl
  · intro d h v w hmem
    by_cases hv : v ∈ d.elems
    · rcases removeFn_mem d h v hv with ⟨helems, hevs⟩
      rw [hevs] at hmem
      by_cases hemp : (eraseFirst d.elems v).isEmpty
      · rw [helems]
        exact List.isEmpty_iff.mp hemp
      · rw [if_neg hemp] at hmem
        simp at hmem
    · rw [removeFn_not_mem d h v hv] at hmem
      simp at hmem

theorem c6_witness :
    (plainState [3] (some 3) (some 3) none).elems = [3] ∧
    (removeFn (plainState [3] (some 3) (some 3) none) [] 3).evs =
      [(SetOperation.opRemove, 3), (SetOperation.opEmpty, 3)] ∧
    (removeFn (plainState [3] (some 3) (some 3) none) [] 3).d.elems = [] :=
  ⟨by decide,
    c6_remove_then_empty.1 (plainState [3] (some 3) (some 3) none) [] 3 (by decide),
    c6_remove_then_empty.2 (plainState [3] (some 3) (some 3) none) [] 3 3 (by decide)⟩

/-! ### Counting lemmas for the one-shot listener analysis -/

theorem cnt_pos_iff_mem (l : Nat) (L : List Nat) : 0 < cnt l L ↔ l ∈ L := by
  induction L with
  | nil => simp [cnt]
  | cons x rest ih =>
    by_cases hx : x = l
    · subst hx
      simp [cnt]
    · simp [cnt, hx, ih, Ne.symm hx]

theorem cnt_eq_zero_iff (l : Nat) (L : List Nat) : cnt l L = 0 ↔ l ∉ L := by
  rw [← cnt_pos_iff_mem]
  omega

theorem cnt_eraseFirst_self (l : Nat) (L : List Nat) (h : l ∈ L) :
    cnt l (eraseFirst L l) + 1 = cnt l L := by
  induction L with
  | nil => cases h
  | cons x rest ih =>
    by_cases hx : x = l
    · subst hx
      simp [eraseFirst, cnt]
      omega
    · have hrest : l ∈ rest := by
        rcases List.mem_cons.mp h with h1 | h1
        · exact absurd h1.symm hx
        · exact h1
      simp [eraseFirst, cnt, hx, ih hrest]

theorem cnt_eraseFirst_ne (l p : Nat) (L : List Nat) (hne : p ≠ l) :
    cnt l (eraseFirst L p) = cnt l L := by
  induction L with
  | nil => rfl
  | cons x rest ih =>
    by_cases hx : x = p
    · subst hx
      simp [eraseFirst, cnt, hne]
    · simp [eraseFirst, cnt, hx, ih]

theorem get?_firstIdx (l : Nat) (L : List Nat) (h : l ∈ L) :
    L.get? (firstIdx L l) = some l := by
  induction L with
  | nil => cases h
  | cons x rest ih =>
    by_cases hx : x = l
    · subst hx
      simp [firstIdx]
    · have hrest : l ∈ rest := by
        rcases List.mem_cons.mp h with h1 | h1
        · exact absurd h1.symm hx
        · exact h1
      rw [show firstIdx (x :: rest) l = firstIdx rest l + 1 by simp [firstIdx, hx]]
      simpa using ih hrest

theorem setAt_length (L : List Nat) (i b : Nat) : (setAt L i b).length = L.length := by
  induction L generalizing i with
  | nil => rfl
  | cons x rest ih =>
    cases i with
    | zero => rfl
    | succ j => simp [setAt, ih]

theorem cnt_setAt (l : Nat) (L : List Nat) (i b x : Nat) (hx : L.get? i = some x) :
    cnt l (setAt L i b) + (if x = l then 1 else 0) =
      cnt l L + (if b = l then 1 else 0) := by
  induction L generalizing i with
  | nil => cases hx
  | cons y rest ih =>
    cases i with
    | zero =>
      have hxy : x = y := by
        simp [List.get?] at hx
        omega
      subst hxy
      simp only [setAt, cnt]
      omega
    | succ j =>
      have hx2 : rest.get? j = some x := by simpa [List.get?] using hx
      have := ih j hx2
      simp only [setAt, cnt]
      omega

theorem lastD_cons_ne (x : Nat) (M : List Nat) (h : M ≠ []) :
    lastD (x :: M) = lastD M := by
  cases M with
  | nil => cases h rfl
  | cons y rest => rfl

theorem cnt_butLast (l : Nat) (L : List Nat) (h : L ≠ []) :
    cnt l (butLast L) + (if lastD L = l then 1 else 0) = cnt l L := by
  induction L with
  | nil => cases h rfl
  | cons x rest ih =>
    cases rest with
    | nil =>
      simp only [butLast, lastD, cnt]
      omega
    | cons y rest2 =>
      have := ih (by simp)
      simp only [butLast, lastD, cnt] at this ⊢
      omega

theorem setAt_ne_nil (L : List Nat) (i b : Nat) (h : L ≠ []) : setAt L i b ≠ [] := by
  intro hcon
  apply h
  have := setAt_length L i b
  rw [hcon] at this
  exact List.eq_nil_of_length_eq_zero this.symm

theorem lastD_setAt_self (L : List Nat) (i : Nat) :
    lastD (setAt L i (lastD L)) = lastD L := by
  induction L generalizing i with
  | nil => rfl
  | cons x rest ih =>
    cases rest with
    | nil =>
      cases i with
      | zero => rfl
      | succ j => rfl
    | cons y rest2 =>
      cases i with
      | zero =>
        have h1 : setAt (x :: y :: rest2) 0 (lastD (x :: y :: rest2)) =
            lastD (x :: y :: rest2) :: y :: rest2 := rfl
        rw [h1, lastD_cons_ne (lastD (x :: y :: rest2)) (y :: rest2) (by simp),
            lastD_cons_ne x (y :: rest2) (by simp)]
      | succ j =>
        have hne : setAt (y :: rest2) j (lastD (y :: rest2)) ≠ [] :=
          setAt_ne_nil _ _ _ (by simp)
        rw [show setAt (x :: y :: rest2) (j + 1) (lastD (x :: y :: rest2)) =
            x :: setAt (y :: rest2) j (lastD (x :: y :: rest2)) from rfl]
        rw [lastD_cons_ne x (y :: rest2) (by simp)]
        rw [lastD_cons_ne _ _ hne, ih j]

theorem cnt_swapPop (l : Nat) (L : List Nat) (i x : Nat) (hx : L.get? i = some x) :
    cnt l (swapPop L i) + (if x = l then 1 else 0) = cnt l L := by
  have hne : L ≠ [] := by
    intro hcon
    rw [hcon] at hx
    cases hx
  have h1 := cnt_setAt l L i (lastD L) x hx
  have h2 := cnt_butLast l (setAt L i (lastD L)) (setAt_ne_nil L i (lastD L) hne)
  rw [lastD_setAt_self L i] at h2
  unfold swapPop
  omega

theorem cnt_deleteOneTime_self (l : Nat) (arr : List Nat) (h : l ∈ arr) :
    cnt l (deleteOneTimeListener arr l) + 1 = cnt l arr := by
  unfold deleteOneTimeListener
  rw [if_pos h]
  have := cnt_swapPop l arr (firstIdx arr l) l (get?_firstIdx l arr h)
  simpa using this

theorem cnt_deleteOneTime_ne (l p : Nat) (arr : List Nat) (hne : p ≠ l) :
    cnt l (deleteOneTimeListener arr p) = cnt l arr := by
  unfold deleteOneTimeListener
  by_cases hp : p ∈ arr
  · rw [if_pos hp]
    have := cnt_swapPop l arr (firstIdx arr p) p (get?_firstIdx p arr hp)
    simpa [hne] using this
  · rw [if_neg hp]

theorem firedCnt_append (l : Nat) (a b : List Fired) :
    firedCnt l (a ++ b) = firedCnt l a + firedCnt l b := by
  induction a with
  | nil => simp [firedCnt]
  | cons e rest ih =>
    show (if e.1 = l then 1 else 0) + firedCnt l (rest ++ b) =
      ((if e.1 = l then 1 else 0) + firedCnt l rest) + firedCnt l b
    rw [ih]
    omega

/-- The listener loop fires a listener that is in none of the pending
snapshot exactly zero times, and preserves its count in the listener set
and the one-time array (the loop only erases fired listeners). -/
theorem dispatchLoop_absent (op : SetOperation) (v : Nat) :
    ∀ (pending setL oneT : List Nat) (l : Nat) (s2 o2 : List Nat) (f2 : List Fired),
      dispatchLoop op v pending setL oneT = (s2, o2, f2) → l ∉ pending →
      cnt l s2 = cnt l setL ∧ cnt l o2 = cnt l oneT ∧ firedCnt l f2 = 0 := by
  intro pending
  induction pending with
  | nil =>
    intro setL oneT l s2 o2 f2 heq _
    unfold dispatchLoop at heq
    cases heq
    exact ⟨rfl, rfl, rfl⟩
  | cons p rest ih =>
    intro setL oneT l s2 o2 f2 heq hl
    have hpl : p ≠ l := fun he => hl (he ▸ List.mem_cons_self p rest)
    have hlrest : l ∉ rest := fun hm => hl (List.mem_cons_of_mem p hm)
    unfold dispatchLoop at heq
    by_cases hp : p ∈ oneT
    · rw [if_pos hp] at heq
      rcases hinner : dispatchLoop op v rest (eraseFirst setL p) (deleteOneTimeListener oneT p)
        with ⟨a, b, c⟩
      rw [hinner] at heq
      dsimp only at heq
      cases heq
      obtain ⟨h1, h2, h3⟩ :=
        ih (eraseFirst setL p) (deleteOneTimeListener oneT p) l s2 o2 c hinner hlrest
      refine ⟨?_, ?_, ?_⟩
      · rw [h1, cnt_eraseFirst_ne l p setL hpl]
      · rw [h2, cnt_deleteOneTime_ne l p oneT hpl]
      · show (if p = l then 1 else 0) + firedCnt l c = 0
        rw [if_neg hpl, h3]
    · rw [if_neg hp] at heq
      rcases hinner : dispatchLoop op v rest setL oneT with ⟨a, b, c⟩
      rw [hinner] at heq
      dsimp only at heq
      cases heq
      obtain ⟨h1, h2, h3⟩ := ih setL oneT l s2 o2 c hinner hlrest
      refine ⟨h1, h2, ?_⟩
      show (if p = l then 1 else 0) + firedCnt l c = 0
      rw [if_neg hpl, h3]

/-- The listener loop fires a listener occurring exactly once in the
pending snapshot exactly once, erasing it from the listener set and one
occurrence from the one-time array (it is found there because the
one-time count stays positive up to its turn). -/
theorem dispatchLoop_hit (op : SetOperation) (v : Nat) :
    ∀ (pending setL oneT : List Nat) (l : Nat) (s2 o2 : List Nat) (f2 : List Fired),
      dispatchLoop op v pending setL oneT = (s2, o2, f2) →
      cnt l pending = 1 → cnt l setL = 1 → 0 < cnt l oneT →
      firedCnt l f2 = 1 ∧ cnt l s2 = 0 ∧ cnt l o2 + 1 = cnt l oneT := by
  intro pending
  induction pending with
  | nil =>
    intro setL oneT l s2 o2 f2 _ hc _ _
    exact absurd hc (by simp [cnt])
  | cons p rest ih =>
    intro setL oneT l s2 o2 f2 heq hcp hcs hco
    by_cases hpl : p = l
    · subst hpl
      have hcrest : cnt p rest = 0 := by
        have h1 : (1 : Nat) + cnt p rest = 1 := by simpa [cnt] using hcp
        omega
      have hlrest : p ∉ rest := (cnt_eq_zero_iff p rest).mp hcrest
      have hpmem : p ∈ oneT := (cnt_pos_iff_mem p oneT).mp hco
      unfold dispatchLoop at heq
      rw [if_pos hpmem] at heq
      rcases hinner : dispatchLoop op v rest (eraseFirst setL p) (deleteOneTimeListener oneT p)
        with ⟨a, b, c⟩
      rw [hinner] at heq
      dsimp only at heq
      cases heq
      obtain ⟨h1, h2, h3⟩ := dispatchLoop_absent op v rest _ _ p s2 o2 c hinner hlrest
      have hs : cnt p (eraseFirst setL p) = 0 := by
        have hmem : p ∈ setL := (cnt_pos_iff_mem p setL).mp (by omega)
        have := cnt_eraseFirst_self p setL hmem
        omega
      have hot : cnt p (deleteOneTimeListener oneT p) + 1 = cnt p oneT :=
        cnt_deleteOneTime_self p oneT hpmem
      refine ⟨?_, ?_, ?_⟩
      · show (if p = p then 1 else 0) + firedCnt p c = 1
        rw [if_pos rfl, h3]
      · rw [h1, hs]
      · rw [h2]
        omega
    · have hcrest : cnt l rest = 1 := by
        have h1 : (0 : Nat) + cnt l rest = 1 := by simpa [cnt, hpl] using hcp
        omega
      unfold dispatchLoop at heq
      by_cases hp : p ∈ oneT
      · rw [if_pos hp] at heq
        rcases hinner : dispatchLoop op v rest (eraseFirst setL p) (deleteOneTimeListener oneT p)
          with ⟨a, b, c⟩
        rw [hinner] at heq
        dsimp only at heq
        cases heq
        have hcs2 : cnt l (eraseFirst setL p) = 1 := by
          rw [cnt_eraseFirst_ne l p setL hpl]
          exact hcs
        have hco2 : 0 < cnt l (deleteOneTimeListener oneT p) := by
          rw [cnt_deleteOneTime_ne l p oneT hpl]
          exact hco
        obtain ⟨h1, h2, h3⟩ := ih _ _ l s2 o2 c hinner hcrest hcs2 hco2
        rw [cnt_deleteOneTime_ne l p oneT hpl] at h3
        refine ⟨?_, h2, h3⟩
        show (if p = l then 1 else 0) + firedCnt l c = 1
        rw [if_neg hpl, h1]
      · rw [if_neg hp] at heq
        rcases hinner : dispatchLoop op v rest setL oneT with ⟨a, b, c⟩
        rw [hinner] at heq
        dsimp only at heq
        cases heq
        obtain ⟨h1, h2, h3⟩ := ih _ _ l s2 o2 c hinner hcrest hcs hco
        refine ⟨?_, h2, h3⟩
        show (if p = l then 1 else 0) + firedCnt l c = 1
        rw [if_neg hpl, h1]

/-! ### Freeness of listener containers -/

/-- A listener is absent from every listener set of a bucket. -/
def bucketFree (l : Nat) (b : Bucket) : Bool :=
  b.entries.all fun e =>
    match e.2 with
    | BEntry.undef => true
    | BEntry.listeners L => cnt l L == 0

/-- A listener is absent from every bucket of the heap. -/
def heapFree (l : Nat) (h : Heap) : Bool :=
  h.all (bucketFree l)

theorem opGet_put (o : OpListeners) (op op' : SetOperation) (L : List Nat) :
    (o.put op L).get op' = if op = op' then L else o.get op' := by
  cases op <;> cases op' <;> simp [OpListeners.get, OpListeners.put]

theorem hGet_mem : ∀ (h : Heap) (i : Nat) (b : Bucket), hGet h i = some b → b ∈ h := by
  intro h
  induction h with
  | nil => intro i b hb; cases hb
  | cons x rest ih =>
    intro i b hb
    cases i with
    | zero =>
      unfold hGet at hb
      cases hb
      exact List.mem_cons_self x rest
    | succ j => exact List.mem_cons_of_mem x (ih j b hb)

theorem mem_hSet : ∀ (h : Heap) (i : Nat) (b' x : Bucket), x ∈ hSet h i b' → x ∈ h ∨ x = b' := by
  intro h
  induction h with
  | nil => intro i b' x hx; cases hx
  | cons y rest ih =>
    intro i b' x hx
    cases i with
    | zero =>
      rcases List.mem_cons.mp hx with h1 | h1
      · exact Or.inr h1
      · exact Or.inl (List.mem_cons_of_mem y h1)
    | succ j =>
      rcases List.mem_cons.mp hx with h1 | h1
      · exact Or.inl (h1 ▸ List.mem_cons_self y rest)
      · rcases ih j b' x h1 with h2 | h2
        · exact Or.inl (List.mem_cons_of_mem y h2)
        · exact Or.inr h2

theorem alook_mem {α β : Type} [DecidableEq α] :
    ∀ (L : List (α × β)) (k : α) (v : β), alook L k = some v → (k, v) ∈ L := by
  intro L
  induction L with
  | nil => intro k v hv; cases hv
  | cons e rest ih =>
    intro k v hv
    rcases e with ⟨a, b⟩
    unfold alook at hv
    by_cases ha : a = k
    · rw [if_pos ha] at hv
      cases hv
      subst ha
      exact List.mem_cons_self _ rest
    · rw [if_neg ha] at hv
      exact List.mem_cons_of_mem _ (ih k v hv)

theorem mem_aset {α β : Type} [DecidableEq α] :
    ∀ (L : List (α × β)) (k : α) (v : β) (x : α × β), x ∈ aset L k v → x ∈ L ∨ x = (k, v) := by
  intro L
  induction L with
  | nil =>
    intro k v x hx
    unfold aset at hx
    rcases List.mem_cons.mp hx with h1 | h1
    · exact Or.inr h1
    · cases h1
  | cons e rest ih =>
    intro k v x hx
    rcases e with ⟨a, b⟩
    unfold aset at hx
    by_cases ha : a = k
    · rw [if_pos ha] at hx
      rcases List.mem_cons.mp hx with h1 | h1
      · exact Or.inr h1
      · exact Or.inl (List.mem_cons_of_mem _ h1)
    · rw [if_neg ha] at hx
      rcases List.mem_cons.mp hx with h1 | h1
      · exact Or.inl (h1 ▸ List.mem_cons_self _ rest)
      · rcases ih k v x h1 with h2 | h2
        · exact Or.inl (List.mem_cons_of_mem _ h2)
        · exact Or.inr h2

theorem bucketFree_get (l : Nat) (b : Bucket) (op : SetOperation) (L : List Nat)
    (hf : bucketFree l b = true) (hg : b.get op = some (BEntry.listeners L)) :
    cnt l L = 0 := by
  have hmem : (op, BEntry.listeners L) ∈ b.entries := alook_mem b.entries op _ hg
  have := List.all_eq_true.mp hf _ hmem
  simpa using this

theorem heapFree_hGet (l : Nat) (h : Heap) (i : Nat) (b : Bucket)
    (hf : heapFree l h = true) (hg : hGet h i = some b) : bucketFree l b = true :=
  List.all_eq_true.mp hf b (hGet_mem h i b hg)

theorem bucketFree_put (l : Nat) (b : Bucket) (op : SetOperation) (L : List Nat)
    (hf : bucketFree l b = true) (hL : cnt l L = 0) :
    bucketFree l (b.put op (BEntry.listeners L)) = true := by
  apply List.all_eq_true.mpr
  intro e he
  rcases mem_aset b.entries op (BEntry.listeners L) e he with h1 | h1
  · exact List.all_eq_true.mp hf e h1
  · subst h1
    simpa using hL

theorem heapFree_hSet (l : Nat) (h : Heap) (i : Nat) (b' : Bucket)
    (hf : heapFree l h = true) (hb : bucketFree l b' = true) :
    heapFree l (hSet h i b') = true := by
  apply List.all_eq_true.mpr
  intro x hx
  rcases mem_hSet h i b' x hx with h1 | h1
  · exact List.all_eq_true.mp hf x h1
  · exact h1 ▸ hb

/-- Central counting lemma for one dispatch: when the heap is free of
listener `l` and `l` occurs in the dispatched operation's global set
either zero times, or exactly once while also being in the one-time
array, then the dispatch fires `l` exactly as often as that global count,
empties `l` out of that global set, leaves every other global set
untouched, consumes as many one-time occurrences, and keeps the heap
free. -/
theorem dispatchEvent_main (l : Nat) (d : ObSetData) (h : Heap) (op : SetOperation) (v : Nat)
    (hh : heapFree l h = true)
    (hc : cnt l (d.ops.get op) = 0 ∨ (cnt l (d.ops.get op) = 1 ∧ 0 < cnt l d.oneTime)) :
    ∀ (r : DRes), dispatchEvent d h op v = r →
      firedCnt l r.fired = cnt l (d.ops.get op) ∧
      cnt l (r.d.ops.get op) = 0 ∧
      (∀ op', op' ≠ op → r.d.ops.get op' = d.ops.get op') ∧
      cnt l r.d.oneTime + cnt l (d.ops.get op) = cnt l d.oneTime ∧
      heapFree l r.h = true := by
  intro r hr
  unfold dispatchEvent at hr
  rcases hg : dispatchLoop op v (d.ops.get op) (d.ops.get op) d.oneTime with ⟨gs, go, gf⟩
  rw [hg] at hr
  dsimp only at hr
  have hglob : firedCnt l gf = cnt l (d.ops.get op) ∧ cnt l gs = 0 ∧
      cnt l go + cnt l (d.ops.get op) = cnt l d.oneTime := by
    rcases hc with hc0 | ⟨hc1, hpos⟩
    · have hnot : l ∉ d.ops.get op := (cnt_eq_zero_iff _ _).mp hc0
      obtain ⟨h1, h2, h3⟩ := dispatchLoop_absent op v _ _ _ l gs go gf hg hnot
      refine ⟨by rw [h3, hc0], by rw [h1, hc0], by rw [h2, hc0]; omega⟩
    · obtain ⟨h1, h2, h3⟩ := dispatchLoop_hit op v _ _ _ l gs go gf hg hc1 hc1 hpos
      refine ⟨by rw [h1, hc1], h2, by rw [hc1]; omega⟩
  obtain ⟨hgf, hgs, hgo⟩ := hglob
  have hput : ∀ op', op' ≠ op → (d.ops.put op gs).get op' = d.ops.get op' := by
    intro op' hne
    rw [opGet_put]
    exact if_neg fun he => hne he.symm
  have hputself : (d.ops.put op gs).get op = gs := by
    rw [opGet_put]
    exact if_pos rfl
  cases halook : alook d.valueL v with
  | none =>
    rw [halook] at hr
    dsimp only at hr
    cases hr
    exact ⟨hgf, by rw [hputself]; exact hgs, hput, hgo, hh⟩
  | some idx =>
    rw [halook] at hr
    dsimp only at hr
    cases hb : hGet h idx with
    | none =>
      rw [hb] at hr
      dsimp only at hr
      cases hr
      exact ⟨hgf, by rw [hputself]; exact hgs, hput, hgo, hh⟩
    | some b =>
      rw [hb] at hr
      dsimp only at hr
      have hbf : bucketFree l b = true := heapFree_hGet l h idx b hh hb
      cases hbe : b.get op with
      | none =>
        rw [hbe] at hr
        dsimp only at hr
        cases hr
        exact ⟨hgf, by rw [hputself]; exact hgs, hput, hgo, hh⟩
      | some e =>
        cases e with
        | undef =>
          rw [hbe] at hr
          dsimp only at hr
          cases hr
          exact ⟨hgf, by rw [hputself]; exact hgs, hput, hgo, hh⟩
        | listeners L =>
          rw [hbe] at hr
          dsimp only at hr
          rcases hw : dispatchLoop op v L L go with ⟨ws, wo, wf⟩
          rw [hw] at hr
          dsimp only at hr
          cases hr
          have hL : cnt l L = 0 := bucketFree_get l b op L hbf hbe
          have hnotL : l ∉ L := (cnt_eq_zero_iff _ _).mp hL
          obtain ⟨hw1, hw2, hw3⟩ := dispatchLoop_absent op v L L go l ws wo wf hw hnotL
          refine ⟨?_, by rw [hputself]; exact hgs, hput, ?_, ?_⟩
          · rw [firedCnt_append, hgf, hw3]
            omega
          · dsimp only
            rw [hw2]
            exact hgo
          · exact heapFree_hSet l h idx _ hh
              (bucketFree_put l b op ws hbf (by rw [hw1]; exact hL))

/-- A dispatch run never fires a listener that is absent from every
global set and from every heap bucket, and those containers stay free
of it throughout. -/
theorem runDispatches_free (l : Nat) :
    ∀ (evs : List (SetOperation × Nat)) (d : ObSetData) (h : Heap),
      (∀ op', cnt l (d.ops.get op') = 0) → heapFree l h = true →
      firedCnt l (runDispatches d h evs).fired = 0 := by
  intro evs
  induction evs with
  | nil => intro d h _ _; rfl
  | cons ev rest ih =>
    intro d h hg hh
    rcases ev with ⟨op, v⟩
    unfold runDispatches
    rcases hr : dispatchEvent d h op v with ⟨d1, h1, f1⟩
    dsimp only
    obtain ⟨ha, hb, hcc, hdd, he⟩ :=
      dispatchEvent_main l d h op v hh (Or.inl (hg op)) ⟨d1, h1, f1⟩ hr
    dsimp only at ha hb hcc hdd he
    have hfree : ∀ op', cnt l (d1.ops.get op') = 0 := by
      intro op'
      by_cases hq : op' = op
      · subst hq
        exact hb
      · rw [hcc op' hq]
        exact hg op'
    have hrest : firedCnt l (runDispatches d1 h1 rest).fired = 0 := ih d1 h1 hfree he
    rw [firedCnt_append, hrest, ha, hg op]

/-! ### Claim C3 -/

/-- Heap after registering listener 1 for `(add, 5)` (shared by the C3,
C4 and C5 scenarios). -/
def heapA0 : Heap := [⟨[(.opAdd, .listeners [1])]⟩]

/-- Fresh default set after `once('add', listener 1)`: listener 1 in the
global `add` set and once in the one-time array. -/
def c3d0 : ObSetData := ⟨[], none, none, [1], ⟨[1], [], [], []⟩, [], none, .FIFO, true⟩

/-- State after additionally `once('add', 5, listener 1)`: the same
callback also in the `(add, 5)` bucket, pushed a second time onto the
one-time array. -/
def c3d1 : ObSetData := ⟨[], none, none, [1, 1], ⟨[1], [], [], []⟩, [(5, 0)], none, .FIFO, true⟩

/-- C3 counterexample: a callback registered with `once` in both the
global scope and a value scope fires twice in a single matching
dispatch (`add` of value 5) — once in the global phase and once in the
value phase — refuting "fires at most once across the set's lifetime
regardless of whether the same callback is registered in both the
global scope and a value scope". -/
theorem c3_counterexample :
    onOperation (plainState [] none none none) .opAdd 1 true = c3d0 ∧
    onValue c3d0 [] .opAdd 5 1 true = (c3d1, heapA0) ∧
    (dispatchEvent c3d1 heapA0 .opAdd 5).fired = [(1, .opAdd, 5), (1, .opAdd, 5)] ∧
    firedCnt 1 (dispatchEvent c3d1 heapA0 .opAdd 5).fired = 2 := by
  refine ⟨by decide, by decide, by decide, by decide⟩

/-- C3 (amended): a callback registered with `once` in a single scope
fires at most once.  Concretely, for a listener that occurs exactly
once in the global set of one operation, in no other global set and in
no value bucket, and exactly once in the one-time array, any sequence
of subsequent dispatches fires it at most once in total: the dispatch
that hits it also removes it from the global set and from the one-time
array, after which no container holds it and no later dispatch can fire
it.  (The dual-scope registration of the counterexample fires once per
scope instead.) -/
theorem c3_once_single_scope_fires_at_most_once (l : Nat) (op0 : SetOperation) :
    ∀ (evs : List (SetOperation × Nat)) (d : ObSetData) (h : Heap),
      cnt l (d.ops.get op0) = 1 →
      (∀ op, op ≠ op0 → cnt l (d.ops.get op) = 0) →
      cnt l d.oneTime = 1 →
      heapFree l h = true →
      firedCnt l (runDispatches d h evs).fired ≤ 1 := by
  intro evs
  induction evs with
  | nil =>
    intro d h _ _ _ _
    show firedCnt l [] ≤ 1
    simp [firedCnt]
  | cons ev rest ih =>
    intro d h h1 h2 h3 hh
    rcases ev with ⟨op, v⟩
    unfold runDispatches
    rcases hr : dispatchEvent d h op v with ⟨d1, hp1, f1⟩
    dsimp only
    rw [firedCnt_append]
    by_cases hop : op = op0
    · subst hop
      obtain ⟨ha, hb, hcc, hdd, he⟩ :=
        dispatchEvent_main l d h op v hh (Or.inr ⟨h1, by omega⟩) ⟨d1, hp1, f1⟩ hr
      dsimp only at ha hb hcc hdd he
      have hfree : ∀ op', cnt l (d1.ops.get op') = 0 := by
        intro op'
        by_cases hq : op' = op
        · subst hq
          exact hb
        · rw [hcc op' hq]
          exact h2 op' hq
      have hrest : firedCnt l (runDispatches d1 hp1 rest).fired = 0 :=
        runDispatches_free l rest d1 hp1 hfree he
      rw [hrest, ha, h1]
    · obtain ⟨ha, hb, hcc, hdd, he⟩ :=
        dispatchEvent_main l d h op v hh (Or.inl (h2 op hop)) ⟨d1, hp1, f1⟩ hr
      dsimp only at ha hb hcc hdd he
      have h1' : cnt l (d1.ops.get op0) = 1 := by
        rw [hcc op0 fun he2 => hop he2.symm]
        exact h1
      have h2' : ∀ op', op' ≠ op0 → cnt l (d1.ops.get op') = 0 := by
        intro op' hq
        by_cases hqo : op' = op
        · subst hqo
          exact hb
        · rw [hcc op' hqo]
          exact h2 op' hq
      have h3' : cnt l d1.oneTime = 1 := by
        have hz := h2 op hop
        omega
      have hle := ih d1 hp1 h1' h2' h3' he
      have haz : firedCnt l f1 = 0 := by
        rw [ha, h2 op hop]
      omega

theorem c3_witness :
    cnt 1 (c3d0.ops.get .opAdd) = 1 ∧
    (∀ op, op ≠ SetOperation.opAdd → cnt 1 (c3d0.ops.get op) = 0) ∧
    cnt 1 c3d0.oneTime = 1 ∧
    heapFree 1 [] = true ∧
    firedCnt 1 (runDispatches c3d0 []
      [(.opAdd, 0), (.opAdd, 3), (.opRemove, 2)]).fired ≤ 1 :=
  ⟨by decide, by decide, by decide, by decide,
    c3_once_single_scope_fires_at_most_once 1 .opAdd
      [(.opAdd, 0), (.opAdd, 3), (.opRemove, 2)] c3d0 []
      (by decide) (by decide) (by decide) (by decide)⟩

/-! ### Claims C4 and C5: shared scenario states -/

/-- Set state holding no elements whose `valueListeners` maps value 5 to
the bucket at heap address 0 (the state after registering one
value-scoped listener on a fresh default set). -/
def regState : ObSetData := ⟨[], none, none, [], ⟨[], [], [], []⟩, [(5, 0)], none, .FIFO, true⟩

/-! ### Claim C4 -/

/-- Heap after additionally registering listener 2 for `(add, 5)`
through the clone. -/
def heapA1 : Heap := [⟨[(.opAdd, .listeners [1, 2])]⟩]

/-- C4: cloned listener containers are not independent for value-scoped
listeners.  Register listener 1 for `(add, 5)` on a fresh default set;
`clone` copies the `valueListeners` entry as a reference to the same
bucket object (the same heap address 0); registering listener 2 for
`(add, 5)` on the clone therefore mutates the shared bucket, and a
subsequent `add`-dispatch for value 5 on the original fires listener 2
— the listener that was registered only on the clone, after cloning —
contradicting the claimed independence. -/
theorem c4_clone_shares_value_buckets :
    onValue (plainState [] none none none) [] .opAdd 5 1 false = (regState, heapA0) ∧
    clone regState = regState ∧
    onValue (clone regState) heapA0 .opAdd 5 2 false = (regState, heapA1) ∧
    (dispatchEvent regState heapA1 .opAdd 5).fired =
      [(1, .opAdd, 5), (2, .opAdd, 5)] ∧
    firedCnt 2 (dispatchEvent regState heapA1 .opAdd 5).fired = 1 := by
  refine ⟨by decide, by decide, by decide, by decide, by decide⟩

/-! ### Claim C5 -/

/-- Heap after registering listener 1 for `(add, 5)` and listener 2 for
`(remove, 5)`. -/
def heapB0 : Heap := [⟨[(.opAdd, .listeners [1]), (.opRemove, .listeners [2])]⟩]

/-- C5: the `freeUnusedResources` cleanup of `off` behaves opposite to
the claim.  With the spec-modelled `isEmpty` (bucket holds no operation
sets), removing the last listener of the only `(value, operation)` pair
discards the now-empty set (slot becomes `undefined`) but then returns
early, keeping value 5 as a key of `valueListeners`; while removing the
last `add`-listener of a value that still has a `remove`-listener
deletes the value's entry from `valueListeners` entirely (orphaning the
surviving `remove` set): the guard `if (isEmpty(...)) return` in
`freeUnusedResourcesIn` is inverted relative to its own
`Free any values without sets` comment. -/
theorem c5_free_unused_resources_inverted :
    onValue (plainState [] none none none) [] .opAdd 5 1 false = (regState, heapA0) ∧
    (off regState heapA0 .opAdd 5 1).d.valueL = [(5, 0)] ∧
    (off regState heapA0 .opAdd 5 1).h = [⟨[(.opAdd, .undef)]⟩] ∧
    onValue regState heapA0 .opRemove 5 2 false = (regState, heapB0) ∧
    (off regState heapB0 .opAdd 5 1).d.valueL = [] ∧
    (off regState heapB0 .opAdd 5 1).h =
      [⟨[(.opAdd, .undef), (.opRemove, .listeners [2])]⟩] := by
  refine ⟨by decide, by decide, by decide, by decide, by decide, by decide⟩

/-! ### Claim C8 -/

/-- Bounded set pre-seeded with two elements: elements `[0, 1]`,
capacity 5, FIFO; the constructor sets `least = 0`, `most = 1`. -/
def c8d0 : ObSetData := plainState [0, 1] (some 0) (some 1) (some 5)

/-- The state after the eviction of 0 out of `c8d0`: the membership is
`[1]` but both recency trackers are untouched. -/
def c8d1 : ObSetData := plainState [1] (some 0) (some 1) (some 5)

theorem c8_key (n : Nat) : addFn n c8d1 [] 2 = none := by
  induction n with
  | zero => decide
  | succ n ih =>
    rw [addFn.eq_def]
    have hmem : (2 ∈ c8d1.elems) = False := by simp [c8d1, plainState]
    have hfull : c8d1.isFull = true := by decide
    have hnoop : removeFn c8d1 [] 0 = ⟨c8d1, [], [], []⟩ :=
      removeFn_not_mem c8d1 [] 0 (by decide)
    simp only [hmem, hfull, if_true, if_false, iff_false]
    simp only [show c8d1.policy = Policy.FIFO from rfl, show c8d1.least = some 0 from rfl]
    simp only [hnoop]
    simp only [ih]

/-- C8: after the FIFO eviction of the tracked least-recently-added
element 0 from the pre-seeded set `c8d0` (membership `[0, 1]`), the
tracker does not become undefined: it still refers to the evicted
non-member 0 while the set `[1]` is non-empty (`delete` never touches
the trackers).  As a consequence, the re-insertion half of `replace`
finds the set still "full", evicts the stale tracker target again as a
no-op, and recurses forever: `add` of a fresh value runs out of any
amount of fuel (a JS stack overflow). -/
theorem c8_stale_tracker_after_eviction :
    removeFn c8d0 [] 0 = ⟨c8d1, [], [(.opRemove, 0)], []⟩ ∧
    c8d1.least = some 0 ∧
    (0 ∈ c8d1.elems) = False ∧
    c8d1.elems ≠ [] ∧
    ∀ fuel, addFn fuel c8d0 [] 2 = none := by
  refine ⟨by decide, by decide, by decide, by decide, ?_⟩
  intro fuel
  cases fuel with
  | zero => decide
  | succ n =>
    rw [addFn.eq_def]
    have hmem : (2 ∈ c8d0.elems) = False := by simp [c8d0, plainState]
    have hfull : c8d0.isFull = true := by decide
    have hevict : removeFn c8d0 [] 0 = ⟨c8d1, [], [(.opRemove, 0)], []⟩ := by decide
    simp only [hmem, hfull, if_true, if_false, iff_false]
    simp only [show c8d0.policy = Policy.FIFO from rfl, show c8d0.least = some 0 from rfl]
    simp only [hevict]
    simp only [c8_key n]

/-! ### Claim C7 -/

/-- C7: adding a value already present is a complete no-op — the state
(membership, recency trackers, listener containers) and the heap are
returned unchanged, no event is dispatched and no listener fires,
which is the chainable counterpart of the spec's `returns false`. -/
theorem c7_add_of_member_is_noop :
    ∀ (fuel : Nat) (d : ObSetData) (h : Heap) (v : Nat), v ∈ d.elems →
      addFn fuel d h v = some ⟨d, h, [], []⟩ := by
  intro fuel d h v hv
  unfold addFn
  simp [hv]

theorem c7_witness :
    5 ∈ (plainState [5] (some 5) (some 5) none).elems ∧
    addFn 0 (plainState [5] (some 5) (some 5) none) [] 5 =
      some ⟨plainState [5] (some 5) (some 5) none, [], [], []⟩ :=
  ⟨by decide, c7_add_of_member_is_noop 0 (plainState [5] (some 5) (some 5) none) [] 5 (by decide)⟩

/-! ### Claim C9 -/

/-- C9: any sequence of `off` calls leaves the global operation-scoped
listener sets exactly as they were, so a listener registered with the
two-argument `on` form (and not marked `once`) is still registered
afterwards: `off` only ever searches the per-value buckets. -/
theorem c9_offSeq_preserves_global_listeners :
    ∀ (calls : List (SetOperation × Nat × Nat)) (d : ObSetData) (h : Heap),
      (offSeq d h calls).1.ops = d.ops := by
  intro calls
  induction calls with
  | nil => intro d h; rfl
  | cons c rest ih =>
    intro d h
    rcases c with ⟨op, v, l⟩
    unfold offSeq
    rcases hoff : off d h op v l with ⟨d1, h1, t⟩
    have hops : d1.ops = d.ops := by
      have := off_ops d h op v l
      rw [hoff] at this
      exact this
    rw [← hops]
    exact ih d1 h1

/-! ### Claim C10 -/

/-- C10: constructing a set from more distinct initial values than the
capacity yields a set holding all of them — the constructor inserts
initial values directly through the inherited `Set.add`, bypassing the
eviction path — so the resulting size strictly exceeds the capacity. -/
theorem c10_initial_values_bypass_capacity :
    ∀ (l : List Nat) (c : Nat) (pol : Policy) (fr : Bool), l.Nodup → c < l.length →
      (mkObSet l (some c) pol fr).elems = l ∧
      (mkObSet l (some c) pol fr).capacity = some c ∧
      c < (mkObSet l (some c) pol fr).elems.length := by
  intro l c pol fr hnd hc
  have he : (mkObSet l (some c) pol fr).elems = l := by
    unfold mkObSet
    have := ctorLoop_elems l ⟨[], none, none, [], ⟨[], [], [], []⟩, [], some c, pol, fr⟩ (by simpa using hnd)
    simpa using this
  refine ⟨he, ?_, ?_⟩
  · unfold mkObSet
    exact ctorLoop_capacity l _
  · rw [he]
    exact hc

theorem c10_witness :
    ([0, 1, 2] : List Nat).Nodup ∧ 2 < ([0, 1, 2] : List Nat).length ∧
    (mkObSet [0, 1, 2] (some 2) .FIFO true).elems = [0, 1, 2] ∧
    (mkObSet [0, 1, 2] (some 2) .FIFO true).capacity = some 2 ∧
    2 < (mkObSet [0, 1, 2] (some 2) .FIFO true).elems.length :=
  ⟨by decide, by decide,
    c10_initial_values_bypass_capacity [0, 1, 2] 2 .FIFO true (by decide) (by decide)⟩

end Obs

